import Mathlib

/-!
Verification of the resource-arbitration core of the DinoTools repository:
the proxy pool (`ProxyManager`), the user-agent pool (`UserAgentManager`)
and the sliding-window rate limiter (`RequestManager`).

The TypeScript classes are shallowly embedded as pure Lean functions over
explicit state records.  JavaScript `Map`s become association lists with
overwrite-on-set semantics, `Set`s become duplicate-free lists,
`Date.now()` becomes an explicit `now : Nat` argument, and `console.warn`
output becomes an explicit `List String` component of a method's result.
The asynchronous parts (promise continuations, `setTimeout`) are modelled
by a deterministic event-loop simulator for the rate limiter and by
explicit operation sequences for the pools.
-/

/-- Association-list lookup with decidable key equality; models
`Map.get` / `Record` indexing (`undefined` becomes `none`). -/
def lookA {α β : Type} [DecidableEq α] (k : α) : List (α × β) → Option β
  | [] => none
  | (k', v) :: rest => if k' = k then some v else lookA k rest

/-- Association-list overwrite; models `Map.set` / `Record` assignment. -/
def setA {α β : Type} [DecidableEq α] (k : α) (v : β) : List (α × β) → List (α × β)
  | [] => [(k, v)]
  | (k', v') :: rest => if k' = k then (k, v) :: rest else (k', v') :: setA k v rest

/-- Pointwise update of the `n`-th element of a list; models an in-place
mutation of `array[n]` (out-of-range indices leave the list unchanged). -/
def updAt {α : Type} (f : α → α) : List α → Nat → List α
  | [], _ => []
  | x :: rest, 0 => f x :: rest
  | x :: rest, n + 1 => x :: updAt f rest n

theorem lookA_setA_self {α β : Type} [DecidableEq α] (k : α) (v : β) :
    ∀ m : List (α × β), lookA k (setA k v m) = some v := by
  intro m
  induction m with
  | nil => simp [setA, lookA]
  | cons hd tl ih =>
      obtain ⟨k', v'⟩ := hd
      by_cases h : k' = k
      · simp [setA, h, lookA]
      · simp [setA, h, lookA, ih]

theorem lookA_setA_ne {α β : Type} [DecidableEq α] {k j : α} (v : β)
    (hne : j ≠ k) : ∀ m : List (α × β), lookA j (setA k v m) = lookA j m := by
  have hkj : ¬ k = j := fun h => hne h.symm
  intro m
  induction m with
  | nil => simp [setA, lookA, hkj]
  | cons hd tl ih =>
      obtain ⟨k', v'⟩ := hd
      by_cases h : k' = k
      · subst h
        simp [setA, lookA, hkj]
      · simp [setA, h, lookA, ih]

theorem mem_setA {α β : Type} [DecidableEq α] {k : α} {v : β}
    {p : α × β} : ∀ {m : List (α × β)}, p ∈ setA k v m → p = (k, v) ∨ p ∈ m := by
  intro m
  induction m with
  | nil => simp [setA]
  | cons hd tl ih =>
      obtain ⟨k', v'⟩ := hd
      by_cases h : k' = k
      · simp [setA, h]
        rintro (rfl | hmem)
        · exact Or.inl rfl
        · exact Or.inr (Or.inr hmem)
      · simp [setA, h]
        rintro (rfl | hmem)
        · exact Or.inr (Or.inl rfl)
        · rcases ih hmem with h' | h'
          · exact Or.inl h'
          · exact Or.inr (Or.inr h')

theorem lookA_mem {α β : Type} [DecidableEq α] {k : α} {v : β} :
    ∀ {m : List (α × β)}, lookA k m = some v → (k, v) ∈ m := by
  intro m
  induction m with
  | nil => simp [lookA]
  | cons hd tl ih =>
      obtain ⟨k', v'⟩ := hd
      intro hl
      by_cases h : k' = k
      · subst h
        simp [lookA] at hl
        subst hl
        exact List.mem_cons_self _ _
      · simp [lookA, h] at hl
        exact List.mem_cons_of_mem _ (ih hl)

theorem updAt_length {α : Type} (f : α → α) :
    ∀ (l : List α) (n : Nat), (updAt f l n).length = l.length := by
  intro l
  induction l with
  | nil => intro n; simp [updAt]
  | cons x rest ih =>
      intro n
      cases n with
      | zero => simp [updAt]
      | succ m => simp [updAt, ih]

theorem updAt_getElem?_self {α : Type} (f : α → α) :
    ∀ (l : List α) (n : Nat), (updAt f l n)[n]? = l[n]?.map f := by
  intro l
  induction l with
  | nil => intro n; simp [updAt]
  | cons x rest ih =>
      intro n
      cases n with
      | zero => simp [updAt]
      | succ m => simpa [updAt] using ih m

theorem updAt_getElem?_ne {α : Type} (f : α → α) :
    ∀ (l : List α) (n m : Nat), m ≠ n → (updAt f l n)[m]? = l[m]? := by
  intro l
  induction l with
  | nil => intro n m _; simp [updAt]
  | cons x rest ih =>
      intro n m hne
      cases n with
      | zero =>
          cases m with
          | zero => exact absurd rfl hne
          | succ m' => simp [updAt]
      | succ n' =>
          cases m with
          | zero => simp [updAt]
          | succ m' =>
              have : m' ≠ n' := fun h => hne (by simp [h])
              simpa [updAt] using ih n' m' this

theorem mem_updAt {α : Type} (f : α → α) :
    ∀ {l : List α} {n : Nat} {q : α}, q ∈ updAt f l n →
      q ∈ l ∨ ∃ p, l[n]? = some p ∧ q = f p := by
  intro l
  induction l with
  | nil => intro n q h; simp [updAt] at h
  | cons x rest ih =>
      intro n q h
      cases n with
      | zero =>
          simp [updAt] at h
          rcases h with rfl | hmem
          · exact Or.inr ⟨x, by simp, rfl⟩
          · exact Or.inl (List.mem_cons_of_mem _ hmem)
      | succ m =>
          simp [updAt] at h
          rcases h with rfl | hmem
          · exact Or.inl (List.mem_cons_self _ _)
          · rcases ih hmem with h' | ⟨p, hp, hq⟩
            · exact Or.inl (List.mem_cons_of_mem _ h')
            · exact Or.inr ⟨p, by simpa using hp, hq⟩

theorem updAt_id {α : Type} (f : α → α) :
    ∀ (l : List α) (n : Nat), (∀ p, l[n]? = some p → f p = p) → updAt f l n = l := by
  intro l
  induction l with
  | nil => intro n _; simp [updAt]
  | cons x rest ih =>
      intro n hfix
      cases n with
      | zero => simp [updAt, hfix x (by simp)]
      | succ m =>
          simp [updAt]
          exact ih m (fun p hp => hfix p (by simpa using hp))

/-!
ProxyManager (src/unnamed/part_003).  Ports are natural numbers; the
`port` field is an `Option Nat` because `p.ports[0]` is `undefined` in
JavaScript when the ports list is empty.  `Date.now()` is passed in as
`now`.  The `released` event emitted by `release` carries no pool state;
waiting `acquire` callers are modelled by operation sequences in which a
blocked `acquire` leaves the state unchanged and is simply retried.
-/

/-- Static configuration of one proxy (interface `ProxyConfig`). -/
structure ProxyConfig where
  host : String
  ports : List Nat
  username : String
  password : String
deriving DecidableEq

/-- Runtime state of one proxy (interface `ProxyState`). -/
structure ProxyState where
  host : String
  ports : List Nat
  username : String
  password : String
  current : Nat
  portIndex : Nat
  port : Option Nat
deriving DecidableEq

/-- Whole-pool state: the class fields of `ProxyManager`. -/
structure PMState where
  proxies : List ProxyState
  maxRequests : Nat
  lockedIndexes : List Nat
  failureCount : List (Nat × Nat)
  cooldownUntil : List (Nat × Nat)
deriving DecidableEq

/-- The `ProxyManager` constructor: each config becomes a `ProxyState`
with `current = 0`, `portIndex = 0` and `port = ports[0]` (which is
`undefined`, i.e. `none`, for an empty ports list).  The constructor
performs no validation and cannot fail. -/
def pmMk (cfgs : List ProxyConfig) (maxRequests : Nat) : PMState :=
  { proxies := cfgs.map (fun p =>
      { host := p.host, ports := p.ports, username := p.username,
        password := p.password, current := 0, portIndex := 0,
        port := p.ports[0]? })
    maxRequests := maxRequests
    lockedIndexes := []
    failureCount := []
    cooldownUntil := [] }

/-- Method `isOnCooldown`: `!!until && Date.now() < until`.  The JS
truthiness test `!!until` is false for a missing entry and for the
numeric value `0`. -/
def isOnCooldown (s : PMState) (now i : Nat) : Bool :=
  match lookA i s.cooldownUntil with
  | none => false
  | some u => !(u == 0) && decide (now < u)

/-- The `findIndex` predicate inside `acquire`: usage below the cap, not
excluded, not locked, not on cooldown. -/
def pmEligible (s : PMState) (now : Nat) (excl : List Nat)
    (p : ProxyState) (i : Nat) : Bool :=
  decide (p.current < s.maxRequests) && !(excl.contains i) &&
    !(s.lockedIndexes.contains i) && !(isOnCooldown s now i)

/-- `Array.findIndex` over the proxies, carrying the running index. -/
def pmFindFrom (s : PMState) (now : Nat) (excl : List Nat) :
    List ProxyState → Nat → Option Nat
  | [], _ => none
  | p :: rest, i =>
      if pmEligible s now excl p i then some i else pmFindFrom s now excl rest (i + 1)

/-- Index of the first eligible proxy, as computed by `acquire`. -/
def pmFindIndex (s : PMState) (now : Nat) (excl : List Nat) : Option Nat :=
  pmFindFrom s now excl s.proxies 0

/-- The in-place mutation `acquire` applies to the selected proxy:
`current++`, `portIndex = (portIndex + 1) % ports.length`,
`port = ports[portIndex]`. -/
def acqUpd (p : ProxyState) : ProxyState :=
  { p with current := p.current + 1,
           portIndex := (p.portIndex + 1) % p.ports.length,
           port := p.ports[(p.portIndex + 1) % p.ports.length]? }

/-- One pass of `acquire`'s scan at time `now`.  A successful pass locks
the index, mutates the proxy and returns it together with its index (the
11-second auto-release `setTimeout` is modelled as a later `release`
operation in an operation sequence).  A failed pass returns `none` with
the state unchanged: the caller suspends on the `released` event and
re-scans later. -/
def pmAcquire (s : PMState) (now : Nat) (excl : List Nat) :
    Option (ProxyState × Nat) × PMState :=
  match pmFindIndex s now excl with
  | none => (none, s)
  | some idx =>
      match s.proxies[idx]? with
      | none => (none, s)
      | some p =>
          let p' := acqUpd p
          let locked' := if s.lockedIndexes.contains idx then s.lockedIndexes
                         else idx :: s.lockedIndexes
          (some (p', idx),
            { s with proxies := updAt acqUpd s.proxies idx,
                     lockedIndexes := locked' })

/-- Method `release`: decrement `current` if positive, remove the index
from `lockedIndexes`, emit `released` (no console output; the second
component is the console output of the call, which is always empty). -/
def pmRelease (s : PMState) (i : Nat) : PMState × List String :=
  ({ s with proxies := updAt (fun p => if 0 < p.current then { p with current := p.current - 1 } else p) s.proxies i,
            lockedIndexes := s.lockedIndexes.filter (fun j => j ≠ i) },
   [])

/-- Method `reportFailure`: increment the failure counter; at 3 or more
failures set `cooldownUntil[i] = now + 10000` and log a warning. -/
def pmReportFailure (s : PMState) (now i : Nat) : PMState × List String :=
  let count := (lookA i s.failureCount).getD 0 + 1
  let s1 := { s with failureCount := setA i count s.failureCount }
  if 3 ≤ count then
    ({ s1 with cooldownUntil := setA i (now + 10000) s1.cooldownUntil },
     ["Proxy " ++ toString i ++ " en cooldown por fallos."])
  else
    (s1, [])

/-- Method `resetFailures`: reset the failure counter to zero, touching
nothing else (in particular not `cooldownUntil`). -/
def pmResetFailures (s : PMState) (i : Nat) : PMState :=
  { s with failureCount := setA i 0 s.failureCount }

/-- One observable operation on a `ProxyManager`.  `acquire` carries the
wall-clock time of the scan and the exclusion list; `release` covers both
caller-initiated releases and the 11-second timeout guard firing. -/
inductive PMOp where
  | acquire (now : Nat) (excl : List Nat)
  | release (i : Nat)
  | reportFailure (now i : Nat)
  | resetFailures (i : Nat)
deriving DecidableEq

/-- State transition of one operation (console output discarded). -/
def pmStep (s : PMState) : PMOp → PMState
  | .acquire now excl => (pmAcquire s now excl).2
  | .release i => (pmRelease s i).1
  | .reportFailure now i => (pmReportFailure s now i).1
  | .resetFailures i => pmResetFailures s i

/-- Run a sequence of operations from a state. -/
def pmRun (s : PMState) (ops : List PMOp) : PMState :=
  ops.foldl pmStep s

theorem getElem?_mem_of_eq {α : Type} : ∀ {l : List α} {n : Nat} {a : α}, l[n]? = some a → a ∈ l := by
  intro l
  induction l with
  | nil => intro n a h; simp at h
  | cons x rest ih =>
      intro n a h
      cases n with
      | zero => simp at h; simp [h]
      | succ m => exact List.mem_cons_of_mem _ (ih (by simpa using h))

theorem pmFindFrom_spec (s : PMState) (now : Nat) (excl : List Nat) :
    ∀ (l : List ProxyState) (base j : Nat), pmFindFrom s now excl l base = some j →
      base ≤ j ∧ ∃ p, l[(j - base)]? = some p ∧ pmEligible s now excl p j = true := by
  intro l
  induction l with
  | nil => intro base j h; simp [pmFindFrom] at h
  | cons p rest ih =>
      intro base j h
      by_cases he : pmEligible s now excl p base = true
      · simp [pmFindFrom, he] at h
        subst h
        exact ⟨Nat.le_refl _, p, by simp, he⟩
      · simp [pmFindFrom, he] at h
        obtain ⟨hle, q, hq, helig⟩ := ih (base + 1) j h
        refine ⟨Nat.le_of_succ_le hle, q, ?_, helig⟩
        have h1 : j - base = (j - (base + 1)) + 1 := by omega
        rw [h1]
        simpa using hq

theorem pmFindIndex_spec {s : PMState} {now : Nat} {excl : List Nat} {j : Nat}
    (h : pmFindIndex s now excl = some j) :
    ∃ p, s.proxies[j]? = some p ∧ pmEligible s now excl p j = true := by
  have := pmFindFrom_spec s now excl s.proxies 0 j h
  simpa using this.2

/-- Unpacking of the `findIndex` eligibility predicate. -/
theorem pmEligible_spec {s : PMState} {now : Nat} {excl : List Nat}
    {p : ProxyState} {i : Nat} (h : pmEligible s now excl p i = true) :
    p.current < s.maxRequests ∧ i ∉ excl ∧ i ∉ s.lockedIndexes ∧
      isOnCooldown s now i = false := by
  simp [pmEligible] at h
  exact ⟨h.1.1.1, h.1.1.2, h.1.2, h.2⟩

/-- A successful `acquire` pass: the granted index was eligible, the
returned proxy is the mutated one, and the new state locks the index. -/
theorem pmAcquire_grant {s : PMState} {now : Nat} {excl : List Nat}
    {pr : ProxyState} {i : Nat} (h : (pmAcquire s now excl).1 = some (pr, i)) :
    ∃ p, s.proxies[i]? = some p ∧ pmEligible s now excl p i = true ∧
      pr = acqUpd p ∧
      (pmAcquire s now excl).2 =
        { s with proxies := updAt acqUpd s.proxies i,
                 lockedIndexes := i :: s.lockedIndexes } := by
  rcases hfi : pmFindIndex s now excl with _ | idx
  · simp [pmAcquire, hfi] at h
  · obtain ⟨p, hp, helig⟩ := pmFindIndex_spec hfi
    have hmem : idx ∉ s.lockedIndexes := (pmEligible_spec helig).2.2.1
    have hacq : pmAcquire s now excl =
        (some (acqUpd p, idx),
          { s with proxies := updAt acqUpd s.proxies idx,
                   lockedIndexes := idx :: s.lockedIndexes }) := by
      simp [pmAcquire, hfi, hp, hmem]
    rw [hacq] at h
    simp only [Option.some.injEq, Prod.mk.injEq] at h
    obtain ⟨hpr, hi⟩ := h
    subst hi
    exact ⟨p, hp, helig, hpr.symm, by rw [hacq]⟩

/-- Pool invariant: every usage counter is at most the capacity. -/
def pmCurBound (s : PMState) : Prop :=
  ∀ p ∈ s.proxies, p.current ≤ s.maxRequests

/-- Pool invariant: a locked index points at a proxy in use. -/
def pmLockBound (s : PMState) : Prop :=
  ∀ i ∈ s.lockedIndexes, ∃ p, s.proxies[i]? = some p ∧ 1 ≤ p.current

theorem pmStep_maxRequests (s : PMState) (op : PMOp) :
    (pmStep s op).maxRequests = s.maxRequests := by
  cases op with
  | acquire now excl =>
      rcases hfi : pmFindIndex s now excl with _ | idx
      · simp [pmStep, pmAcquire, hfi]
      · rcases hp : s.proxies[idx]? with _ | p
        · simp [pmStep, pmAcquire, hfi, hp]
        · simp [pmStep, pmAcquire, hfi, hp]
  | release i => simp [pmStep, pmRelease]
  | reportFailure now i =>
      simp only [pmStep, pmReportFailure]
      by_cases h : 3 ≤ (lookA i s.failureCount).getD 0 + 1 <;> simp [h]
  | resetFailures i => simp [pmStep, pmResetFailures]

theorem pmRun_maxRequests (ops : List PMOp) :
    ∀ s : PMState, (pmRun s ops).maxRequests = s.maxRequests := by
  induction ops with
  | nil => intro s; rfl
  | cons op rest ih =>
      intro s
      have : pmRun s (op :: rest) = pmRun (pmStep s op) rest := rfl
      rw [this, ih, pmStep_maxRequests]

/-- When the scan finds nothing, `acquire` leaves the state unchanged
(the caller waits for a `released` event). -/
theorem pmAcquire_none {s : PMState} {now : Nat} {excl : List Nat}
    (h : (pmAcquire s now excl).1 = none) : (pmAcquire s now excl).2 = s := by
  rcases hfi : pmFindIndex s now excl with _ | idx
  · simp [pmAcquire, hfi]
  · rcases hp : s.proxies[idx]? with _ | p
    · simp [pmAcquire, hfi, hp]
    · simp [pmAcquire, hfi, hp] at h

theorem pmReportFailure_proxies (s : PMState) (now i : Nat) :
    ((pmReportFailure s now i).1).proxies = s.proxies := by
  simp only [pmReportFailure]
  by_cases h : 3 ≤ (lookA i s.failureCount).getD 0 + 1 <;> simp [h]

theorem pmReportFailure_locked (s : PMState) (now i : Nat) :
    ((pmReportFailure s now i).1).lockedIndexes = s.lockedIndexes := by
  simp only [pmReportFailure]
  by_cases h : 3 ≤ (lookA i s.failureCount).getD 0 + 1 <;> simp [h]

theorem pmStep_curBound {s : PMState} {op : PMOp} (h : pmCurBound s) :
    pmCurBound (pmStep s op) := by
  cases op with
  | acquire now excl =>
      show pmCurBound (pmAcquire s now excl).2
      rcases hga : (pmAcquire s now excl).1 with _ | ⟨pr, i⟩
      · rw [pmAcquire_none hga]; exact h
      · obtain ⟨p, hp, helig, _, hstate⟩ := pmAcquire_grant hga
        rw [hstate]
        intro q hq
        show q.current ≤ s.maxRequests
        rcases mem_updAt _ hq with hmem | ⟨p0, hp0, rfl⟩
        · exact h q hmem
        · have hpp : p0 = p := by rw [hp] at hp0; exact (Option.some.inj hp0).symm
          subst hpp
          have hlt : p0.current < s.maxRequests := (pmEligible_spec helig).1
          simpa [acqUpd] using hlt
  | release i =>
      intro q hq
      show q.current ≤ s.maxRequests
      simp only [pmStep, pmRelease] at hq
      rcases mem_updAt _ hq with hmem | ⟨p0, hp0, rfl⟩
      · exact h q hmem
      · have hle := h p0 (getElem?_mem_of_eq hp0)
        by_cases hz : 0 < p0.current <;> simp [hz] <;> omega
  | reportFailure now i =>
      intro q hq
      simp only [pmStep] at hq ⊢
      rw [pmReportFailure_proxies] at hq
      have hmx : (pmStep s (.reportFailure now i)).maxRequests = s.maxRequests :=
        pmStep_maxRequests s _
      simp only [pmStep] at hmx
      rw [hmx]
      exact h q hq
  | resetFailures i =>
      intro q hq
      exact h q hq

theorem pmStep_lockBound {s : PMState} {op : PMOp} (h : pmLockBound s) :
    pmLockBound (pmStep s op) := by
  cases op with
  | acquire now excl =>
      show pmLockBound (pmAcquire s now excl).2
      rcases hga : (pmAcquire s now excl).1 with _ | ⟨pr, i⟩
      · rw [pmAcquire_none hga]; exact h
      · obtain ⟨p, hp, helig, _, hstate⟩ := pmAcquire_grant hga
        rw [hstate]
        intro j hj
        rcases List.mem_cons.mp hj with rfl | hmem
        · refine ⟨acqUpd p, ?_, ?_⟩
          · show (updAt acqUpd s.proxies j)[j]? = some (acqUpd p)
            rw [updAt_getElem?_self, hp]; rfl
          · simp [acqUpd]
        · have hne : j ≠ i := by
            intro hji
            exact (pmEligible_spec helig).2.2.1 (hji ▸ hmem)
          obtain ⟨p0, hp0, hge⟩ := h j hmem
          refine ⟨p0, ?_, hge⟩
          show (updAt acqUpd s.proxies i)[j]? = some p0
          rw [updAt_getElem?_ne _ _ _ _ hne, hp0]
  | release i =>
      intro j hj
      simp only [pmStep, pmRelease] at hj ⊢
      have hj' := List.mem_filter.mp hj
      have hne : j ≠ i := by simpa using hj'.2
      obtain ⟨p0, hp0, hge⟩ := h j hj'.1
      refine ⟨p0, ?_, hge⟩
      show (updAt _ s.proxies i)[j]? = some p0
      rw [updAt_getElem?_ne _ _ _ _ hne, hp0]
  | reportFailure now i =>
      intro j hj
      simp only [pmStep] at hj ⊢
      rw [pmReportFailure_locked] at hj
      obtain ⟨p0, hp0, hge⟩ := h j hj
      refine ⟨p0, ?_, hge⟩
      show ((pmReportFailure s now i).1).proxies[j]? = some p0
      rw [pmReportFailure_proxies]
      exact hp0
  | resetFailures i =>
      intro j hj
      obtain ⟨p0, hp0, hge⟩ := h j hj
      exact ⟨p0, hp0, hge⟩

theorem pmMk_curBound (cfgs : List ProxyConfig) (mx : Nat) :
    pmCurBound (pmMk cfgs mx) := by
  intro p hp
  simp [pmMk] at hp
  obtain ⟨c, _, rfl⟩ := hp
  simp [pmMk]

theorem pmMk_lockBound (cfgs : List ProxyConfig) (mx : Nat) :
    pmLockBound (pmMk cfgs mx) := by
  intro i hi
  simp [pmMk] at hi

theorem pmRun_curBound {s : PMState} (h : pmCurBound s) :
    ∀ ops : List PMOp, pmCurBound (pmRun s ops) := by
  intro ops
  induction ops generalizing s with
  | nil => exact h
  | cons op rest ih => exact ih (pmStep_curBound h)

theorem pmRun_lockBound {s : PMState} (h : pmLockBound s) :
    ∀ ops : List PMOp, pmLockBound (pmRun s ops) := by
  intro ops
  induction ops generalizing s with
  | nil => exact h
  | cons op rest ih => exact ih (pmStep_lockBound h)

/-!
UserAgentManager (src/unnamed/part_001).  The random shuffle in
`getAvailableUserAgent` is modelled by passing the shuffled list
explicitly to `acquire`; every real shuffle is a permutation of
`userAgents`, and the theorems below hold for arbitrary lists, which
subsumes all shuffles.  Suspended `acquire` callers (`waiters`) are
modelled by their count; a waiter woken inside `release` immediately
receives the released user-agent via `incrementUsage`.
-/

/-- Class fields of `UserAgentManager`. -/
structure UAState where
  userAgents : List String
  maxConcurrentUses : Nat
  usageCount : List (String × Nat)
  waiters : Nat
deriving DecidableEq

/-- Constructor: every user-agent starts with usage count 0. -/
def uaMk (userAgents : List String) (maxConcurrentUses : Nat) : UAState :=
  { userAgents := userAgents
    maxConcurrentUses := maxConcurrentUses
    usageCount := userAgents.foldl (fun m ua => setA ua 0 m) []
    waiters := 0 }

/-- Method `incrementUsage`: `usageCount.set(ua, (usageCount.get(ua) ?? 0) + 1)`. -/
def uaIncrementUsage (s : UAState) (ua : String) : UAState :=
  { s with usageCount := setA ua ((lookA ua s.usageCount).getD 0 + 1) s.usageCount }

/-- Method `getAvailableUserAgent` applied to a given shuffle: the first
user-agent of the shuffled list whose usage count is below the limit. -/
def uaGetAvailable (s : UAState) (shuffled : List String) : Option String :=
  shuffled.find? (fun ua => decide ((lookA ua s.usageCount).getD 0 < s.maxConcurrentUses))

/-- Method `acquire`: grab an available user-agent and bump its counter,
or register a waiter when none is available. -/
def uaAcquire (s : UAState) (shuffled : List String) : Option String × UAState :=
  match uaGetAvailable s shuffled with
  | some ua => (some ua, uaIncrementUsage s ua)
  | none => (none, { s with waiters := s.waiters + 1 })

/-- Method `release`: decrement the counter when positive and hand the
user-agent to the first waiter, if any (re-incrementing the counter);
releasing an idle user-agent only logs a warning.  The second component
is the console warning output of the call. -/
def uaRelease (s : UAState) (ua : String) : UAState × List String :=
  let current := (lookA ua s.usageCount).getD 0
  if 0 < current then
    let s1 := { s with usageCount := setA ua (current - 1) s.usageCount }
    if 0 < s1.waiters then
      (uaIncrementUsage { s1 with waiters := s1.waiters - 1 } ua, [])
    else
      (s1, [])
  else
    (s, ["[UserAgentManager] Se intentó liberar un user-agent que no estaba en uso: " ++ ua])

/-- One observable operation on a `UserAgentManager`. -/
inductive UAOp where
  | acquire (shuffled : List String)
  | release (ua : String)
deriving DecidableEq

/-- State transition of one operation (console output discarded). -/
def uaStep (s : UAState) : UAOp → UAState
  | .acquire shuffled => (uaAcquire s shuffled).2
  | .release ua => (uaRelease s ua).1

/-- Run a sequence of operations from a state. -/
def uaRun (s : UAState) (ops : List UAOp) : UAState :=
  ops.foldl uaStep s

/-- Pool invariant: every stored usage count is at most the capacity. -/
def uaCountBound (s : UAState) : Prop :=
  ∀ kv ∈ s.usageCount, kv.2 ≤ s.maxConcurrentUses

theorem uaIncrementUsage_fields (s : UAState) (ua : String) :
    (uaIncrementUsage s ua).maxConcurrentUses = s.maxConcurrentUses := rfl

theorem uaIncrementUsage_countBound {s : UAState} {ua : String}
    (h : uaCountBound s)
    (hlt : (lookA ua s.usageCount).getD 0 < s.maxConcurrentUses) :
    uaCountBound (uaIncrementUsage s ua) := by
  intro kv hkv
  simp only [uaIncrementUsage] at hkv
  rcases mem_setA hkv with rfl | hmem
  · show (lookA ua s.usageCount).getD 0 + 1 ≤ s.maxConcurrentUses
    omega
  · exact h kv hmem

theorem uaStep_countBound {s : UAState} {op : UAOp} (h : uaCountBound s) :
    uaCountBound (uaStep s op) := by
  cases op with
  | acquire shuffled =>
      show uaCountBound (uaAcquire s shuffled).2
      rcases hav : uaGetAvailable s shuffled with _ | ua
      · simp only [uaAcquire, hav]
        intro kv hkv
        exact h kv hkv
      · simp only [uaAcquire, hav]
        have hlt : (lookA ua s.usageCount).getD 0 < s.maxConcurrentUses := by
          have := List.find?_some hav
          simpa using this
        exact uaIncrementUsage_countBound h hlt
  | release ua =>
      show uaCountBound (uaRelease s ua).1
      by_cases hcur : 0 < (lookA ua s.usageCount).getD 0
      · have hle : (lookA ua s.usageCount).getD 0 ≤ s.maxConcurrentUses := by
          rcases hl : lookA ua s.usageCount with _ | c
          · simp [hl]
          · have := h (ua, c) (lookA_mem hl)
            simpa [hl] using this
        by_cases hw : 0 < s.waiters
        · simp only [uaRelease, hcur, if_true, hw]
          intro kv hkv
          simp only [uaIncrementUsage] at hkv
          rcases mem_setA hkv with rfl | hmem
          · show (lookA ua (setA ua ((lookA ua s.usageCount).getD 0 - 1) s.usageCount)).getD 0 + 1
              ≤ s.maxConcurrentUses
            rw [lookA_setA_self]
            simp
            omega
          · rcases mem_setA hmem with rfl | hmem2
            · show (lookA ua s.usageCount).getD 0 - 1 ≤ s.maxConcurrentUses
              omega
            · exact h kv hmem2
        · simp only [uaRelease, hcur, if_true, hw, if_false]
          intro kv hkv
          rcases mem_setA hkv with rfl | hmem
          · show (lookA ua s.usageCount).getD 0 - 1 ≤ s.maxConcurrentUses
            omega
          · exact h kv hmem
      · simp only [uaRelease, hcur, if_false]
        intro kv hkv
        exact h kv hkv

theorem uaMk_countBound (userAgents : List String) (mx : Nat) :
    uaCountBound (uaMk userAgents mx) := by
  show ∀ kv ∈ (uaMk userAgents mx).usageCount, kv.2 ≤ mx
  have main : ∀ (l : List String) (m : List (String × Nat)),
      (∀ kv ∈ m, kv.2 ≤ mx) →
      ∀ kv ∈ l.foldl (fun m ua => setA ua 0 m) m, kv.2 ≤ mx := by
    intro l
    induction l with
    | nil => intro m hm kv hkv; exact hm kv hkv
    | cons ua rest ih =>
        intro m hm kv hkv
        refine ih (setA ua 0 m) ?_ kv hkv
        intro kv' hkv'
        rcases mem_setA hkv' with rfl | hmem
        · exact Nat.zero_le _
        · exact hm kv' hmem
  exact main userAgents [] (by simp)

theorem uaStep_maxConcurrentUses (s : UAState) (op : UAOp) :
    (uaStep s op).maxConcurrentUses = s.maxConcurrentUses := by
  cases op with
  | acquire shuffled =>
      rcases hav : uaGetAvailable s shuffled with _ | ua <;>
        simp [uaStep, uaAcquire, hav, uaIncrementUsage]
  | release ua =>
      by_cases hcur : 0 < (lookA ua s.usageCount).getD 0 <;>
        by_cases hw : 0 < s.waiters <;>
        simp [uaStep, uaRelease, hcur, hw, uaIncrementUsage]

theorem uaRun_countBound {s : UAState} (h : uaCountBound s) :
    ∀ ops : List UAOp, uaCountBound (uaRun s ops) := by
  intro ops
  induction ops generalizing s with
  | nil => exact h
  | cons op rest ih => exact ih (uaStep_countBound h)

theorem uaRun_maxConcurrentUses (ops : List UAOp) :
    ∀ s : UAState, (uaRun s ops).maxConcurrentUses = s.maxConcurrentUses := by
  induction ops with
  | nil => intro s; rfl
  | cons op rest ih =>
      intro s
      have : uaRun s (op :: rest) = uaRun (uaStep s op) rest := rfl
      rw [this, ih, uaStep_maxConcurrentUses]

/-- C1: in both pools, after any operation sequence from construction,
every usage counter stays within `0 ≤ count ≤ max`.  Counters are
naturals in the embedding (both classes only ever decrement counters
that are strictly positive, so the floor at zero is built in), hence the
lower bound holds by typing and the theorem states the upper bound: no
acquire/release/reportFailure/resetFailures sequence drives a
`ProxyManager` usage counter past `maxRequests`, nor a
`UserAgentManager` counter past `maxConcurrentUses`. -/
theorem usage_count_bounded :
    (∀ (cfgs : List ProxyConfig) (mx : Nat) (ops : List PMOp),
      ∀ p ∈ (pmRun (pmMk cfgs mx) ops).proxies, p.current ≤ mx) ∧
    (∀ (uas : List String) (mc : Nat) (ops : List UAOp),
      ∀ kv ∈ (uaRun (uaMk uas mc) ops).usageCount, kv.2 ≤ mc) := by
  constructor
  · intro cfgs mx ops p hp
    have hb := pmRun_curBound (pmMk_curBound cfgs mx) ops p hp
    have hmx : (pmRun (pmMk cfgs mx) ops).maxRequests = mx := by
      rw [pmRun_maxRequests]; rfl
    rw [hmx] at hb
    exact hb
  · intro uas mc ops kv hkv
    have hb := uaRun_countBound (uaMk_countBound uas mc) ops kv hkv
    have hmx : (uaRun (uaMk uas mc) ops).maxConcurrentUses = mc := by
      rw [uaRun_maxConcurrentUses]; rfl
    rw [hmx] at hb
    exact hb

/-- Witness for C1 at a concrete pool, capacity and operation sequence. -/
theorem usage_count_bounded_witness :
    (⟨"h", [8080], "u", "w", 1, 0, some 8080⟩ : ProxyState).current ≤ 2 ∧
    (("UA1", 1) : String × Nat).2 ≤ 1 :=
  ⟨usage_count_bounded.1 [⟨"h", [8080], "u", "w"⟩] 2 [PMOp.acquire 0 []]
      ⟨"h", [8080], "u", "w", 1, 0, some 8080⟩ (by decide),
   usage_count_bounded.2 ["UA1"] 1 [UAOp.acquire ["UA1"]] ("UA1", 1) (by decide)⟩

/-- C5: `acquire` never grants an index whose cooldown expiry lies in the
future: if the scan returns index `i` at time `now` and `i` has a stored
cooldown expiry `u`, then `u ≤ now` (the cooldown has expired).  This
holds for every pool state, hence in particular for every reachable one. -/
theorem acquire_never_selects_cooldown :
    ∀ (s : PMState) (now : Nat) (excl : List Nat) (pr : ProxyState) (i u : Nat),
      (pmAcquire s now excl).1 = some (pr, i) →
      lookA i s.cooldownUntil = some u → ¬ (now < u) := by
  intro s now excl pr i u hga hu hlt
  obtain ⟨p, hp, helig, _, _⟩ := pmAcquire_grant hga
  have hcool := (pmEligible_spec helig).2.2.2
  rw [isOnCooldown, hu] at hcool
  simp at hcool
  omega

/-- Witness for C5: a pool whose only proxy has an expired cooldown
(expiry 5, scanned at time 10) is granted, and its expiry is not in the
future. -/
theorem acquire_never_selects_cooldown_witness :
    (pmAcquire { pmMk [⟨"h", [8080], "u", "w"⟩] 1 with cooldownUntil := [(0, 5)] } 10 []).1
        = some (⟨"h", [8080], "u", "w", 1, 0, some 8080⟩, 0) ∧
    ¬ (10 < 5) :=
  ⟨by decide,
   acquire_never_selects_cooldown
     { pmMk [⟨"h", [8080], "u", "w"⟩] 1 with cooldownUntil := [(0, 5)] } 10 []
     ⟨"h", [8080], "u", "w", 1, 0, some 8080⟩ 0 5 (by decide) (by decide)⟩

theorem pmReportFailure_below (s : PMState) (now i : Nat)
    (h : (lookA i s.failureCount).getD 0 + 1 < 3) :
    (pmReportFailure s now i).1 = { s with failureCount := setA i ((lookA i s.failureCount).getD 0 + 1) s.failureCount } := by
  simp only [pmReportFailure]
  rw [if_neg (by omega)]

theorem pmReportFailure_reach (s : PMState) (now i : Nat)
    (h : 3 ≤ (lookA i s.failureCount).getD 0 + 1) :
    (pmReportFailure s now i).1 =
      { s with failureCount := setA i ((lookA i s.failureCount).getD 0 + 1) s.failureCount,
               cooldownUntil := setA i (now + 10000) s.cooldownUntil } := by
  simp only [pmReportFailure]
  rw [if_pos h]

/-- C4: starting from a zero failure counter for proxy `i`, the first two
`reportFailure(i)` calls leave `i`'s cooldown entry unchanged, the third
sets its expiry to exactly the failure time plus 10000 ms; from then on
`i` is on cooldown at `now` precisely while `now < t3 + 10000` — in
particular `acquire` cannot grant `i` before that instant, and the
cooldown test no longer excludes `i` afterwards.  `resetFailures` zeroes
the counter and leaves the cooldown map untouched. -/
theorem failure_threshold_cooldown :
    ∀ (s0 : PMState) (i t1 t2 t3 : Nat),
      (lookA i s0.failureCount).getD 0 = 0 →
      lookA i ((pmReportFailure s0 t1 i).1).cooldownUntil = lookA i s0.cooldownUntil ∧
      lookA i ((pmReportFailure (pmReportFailure s0 t1 i).1 t2 i).1).cooldownUntil
        = lookA i s0.cooldownUntil ∧
      lookA i ((pmReportFailure (pmReportFailure (pmReportFailure s0 t1 i).1 t2 i).1 t3 i).1).cooldownUntil
        = some (t3 + 10000) ∧
      (∀ now, isOnCooldown (pmReportFailure (pmReportFailure (pmReportFailure s0 t1 i).1 t2 i).1 t3 i).1 now i
        = decide (now < t3 + 10000)) ∧
      (∀ now excl pr j, now < t3 + 10000 →
        (pmAcquire (pmReportFailure (pmReportFailure (pmReportFailure s0 t1 i).1 t2 i).1 t3 i).1 now excl).1
          = some (pr, j) → j ≠ i) ∧
      (∀ s : PMState, (lookA i (pmResetFailures s i).failureCount).getD 0 = 0 ∧
        (pmResetFailures s i).cooldownUntil = s.cooldownUntil) := by
  intro s0 i t1 t2 t3 h0
  have h1 : (pmReportFailure s0 t1 i).1 =
      { s0 with failureCount := setA i 1 s0.failureCount } := by
    have := pmReportFailure_below s0 t1 i (by omega)
    rw [h0] at this
    exact this
  have hc1 : lookA i ((pmReportFailure s0 t1 i).1).failureCount = some 1 := by
    rw [h1]; exact lookA_setA_self _ _ _
  have h2 : (pmReportFailure (pmReportFailure s0 t1 i).1 t2 i).1 =
      { s0 with failureCount := setA i 2 (setA i 1 s0.failureCount) } := by
    have := pmReportFailure_below (pmReportFailure s0 t1 i).1 t2 i (by rw [hc1]; simp)
    rw [hc1] at this
    simp at this
    rw [this, h1]
  have hc2 : lookA i ((pmReportFailure (pmReportFailure s0 t1 i).1 t2 i).1).failureCount = some 2 := by
    rw [h2]; exact lookA_setA_self _ _ _
  have h3 : (pmReportFailure (pmReportFailure (pmReportFailure s0 t1 i).1 t2 i).1 t3 i).1 =
      { s0 with failureCount := setA i 3 (setA i 2 (setA i 1 s0.failureCount)),
                cooldownUntil := setA i (t3 + 10000) s0.cooldownUntil } := by
    have := pmReportFailure_reach (pmReportFailure (pmReportFailure s0 t1 i).1 t2 i).1 t3 i
      (by rw [hc2]; simp)
    rw [hc2] at this
    simp at this
    rw [this, h2]
  have hcool3 : lookA i ((pmReportFailure (pmReportFailure (pmReportFailure s0 t1 i).1 t2 i).1 t3 i).1).cooldownUntil
      = some (t3 + 10000) := by
    rw [h3]; exact lookA_setA_self _ _ _
  refine ⟨by rw [h1], by rw [h2], hcool3, ?_, ?_, ?_⟩
  · intro now
    rw [isOnCooldown, hcool3]
    have hne : (t3 + 10000 == 0) = false := by simp
    simp [hne]
  · intro now excl pr j hnow hga hji
    subst hji
    obtain ⟨p, hp, helig, _, _⟩ := pmAcquire_grant hga
    have hcool := (pmEligible_spec helig).2.2.2
    rw [isOnCooldown, hcool3] at hcool
    simp at hcool
    omega
  · intro s
    refine ⟨?_, rfl⟩
    show (lookA i (setA i 0 s.failureCount)).getD 0 = 0
    rw [lookA_setA_self]
    rfl

/-- Witness for C4 at a freshly constructed one-proxy pool with failures
reported at times 1, 2 and 3. -/
theorem failure_threshold_cooldown_witness :
    (lookA 0 (pmMk [⟨"h", [8080], "u", "w"⟩] 1).failureCount).getD 0 = 0 ∧
    lookA 0 ((pmReportFailure (pmReportFailure (pmReportFailure (pmMk [⟨"h", [8080], "u", "w"⟩] 1) 1 0).1 2 0).1 3 0).1).cooldownUntil
      = some 10003 :=
  ⟨by decide,
   (failure_threshold_cooldown (pmMk [⟨"h", [8080], "u", "w"⟩] 1) 0 1 2 3 (by decide)).2.2.1⟩

/-- In any state satisfying the lock invariant (which every reachable
state does, by `pmRun_lockBound`), releasing a proxy whose usage count is
zero is a complete no-op on the pool state and produces no console
output: the decrement is guarded by `current > 0` and the index cannot be
locked. -/
theorem pmRelease_idle {s : PMState} {i : Nat} {p : ProxyState}
    (hlb : pmLockBound s) (hp : s.proxies[i]? = some p) (hz : p.current = 0) :
    pmRelease s i = (s, []) := by
  have hupd : updAt (fun q => if 0 < q.current then { q with current := q.current - 1 } else q)
      s.proxies i = s.proxies := by
    apply updAt_id
    intro q hq
    rw [hp] at hq
    have hpq : p = q := Option.some.inj hq
    rw [← hpq, hz]
    simp
  have hni : i ∉ s.lockedIndexes := by
    intro hmem
    obtain ⟨q, hq, hge⟩ := hlb i hmem
    rw [hp] at hq
    have hpq : p = q := Option.some.inj hq
    rw [← hpq] at hge
    omega
  have hfilter : s.lockedIndexes.filter (fun j => j ≠ i) = s.lockedIndexes := by
    apply List.filter_eq_self.mpr
    intro a ha
    simp
    intro hai
    exact hni (hai ▸ ha)
  show ({ s with proxies := _, lockedIndexes := _ }, []) = (s, [])
  rw [hupd, hfilter]

/-- C7 (amended): releasing a resource whose usage count is zero leaves
the pool state unchanged and is never an error; `UserAgentManager.release`
logs a warning in that case, while `ProxyManager.release` logs nothing
(it silently re-emits the `released` signal).  The `ProxyManager` part
assumes the lock invariant, which holds in every state reachable from
construction (`pmMk_lockBound`, `pmRun_lockBound`).  Totality of the
embedding reflects that neither method throws on a valid index. -/
theorem release_idle_noop :
    (∀ (s : PMState) (i : Nat) (p : ProxyState),
      pmLockBound s → s.proxies[i]? = some p → p.current = 0 →
      pmRelease s i = (s, [])) ∧
    (∀ (s : UAState) (ua : String),
      (lookA ua s.usageCount).getD 0 = 0 →
      uaRelease s ua =
        (s, ["[UserAgentManager] Se intentó liberar un user-agent que no estaba en uso: " ++ ua])) := by
  constructor
  · intro s i p hlb hp hz
    exact pmRelease_idle hlb hp hz
  · intro s ua hz
    rw [uaRelease]
    simp [hz]

/-- Counterexample for C7 as stated: releasing the idle proxy 0 of a
freshly built pool logs no warning at all (`ProxyManager.release`
contains no logging call), contradicting the claim that an idle release
logs a warning in every pool. -/
theorem release_idle_no_warning_counterexample :
    (pmRelease (pmMk [⟨"h", [8080], "u", "w"⟩] 2) 0).2 = [] := by decide

/-- Witness for the amended C7 at concrete idle pools. -/
theorem release_idle_noop_witness :
    pmRelease (pmMk [⟨"h", [8080], "u", "w"⟩] 2) 0 = (pmMk [⟨"h", [8080], "u", "w"⟩] 2, []) ∧
    uaRelease (uaMk ["UA1"] 1) "UA1" =
      (uaMk ["UA1"] 1,
       ["[UserAgentManager] Se intentó liberar un user-agent que no estaba en uso: " ++ "UA1"]) :=
  ⟨release_idle_noop.1 (pmMk [⟨"h", [8080], "u", "w"⟩] 2) 0 ⟨"h", [8080], "u", "w", 0, 0, some 8080⟩
      (pmMk_lockBound [⟨"h", [8080], "u", "w"⟩] 2) (by decide) (by decide),
   release_idle_noop.2 (uaMk ["UA1"] 1) "UA1" (by decide)⟩

/-- A step that is not `release i` keeps `i` locked. -/
theorem pmStep_locked_mem {s : PMState} {i : Nat} {op : PMOp}
    (hmem : i ∈ s.lockedIndexes) (hne : op ≠ PMOp.release i) :
    i ∈ (pmStep s op).lockedIndexes := by
  cases op with
  | acquire now excl =>
      show i ∈ ((pmAcquire s now excl).2).lockedIndexes
      rcases hga : (pmAcquire s now excl).1 with _ | ⟨pr, j⟩
      · rw [pmAcquire_none hga]; exact hmem
      · obtain ⟨p, hp, helig, _, hstate⟩ := pmAcquire_grant hga
        rw [hstate]
        exact List.mem_cons_of_mem _ hmem
  | release j =>
      have hji : j ≠ i := by
        intro h
        exact hne (by rw [h])
      show i ∈ (s.lockedIndexes.filter (fun a => a ≠ j))
      exact List.mem_filter.mpr ⟨hmem, by simpa using fun h => hji h.symm⟩
  | reportFailure now j =>
      show i ∈ ((pmReportFailure s now j).1).lockedIndexes
      rw [pmReportFailure_locked]
      exact hmem
  | resetFailures j => exact hmem

/-- C8: a successful `acquire` of index `i` records `i` in
`lockedIndexes`; an `acquire` scan never grants a locked index — whatever
its usage count or the configured capacity, since the lock test is a
separate conjunct of the eligibility predicate — and `i` stays locked
across any operation sequence containing no `release i`.  Hence between a
grant of `i` and the next `release(i)` (caller-initiated or fired by the
11-second timeout) no other `acquire` can be granted `i`: effective
concurrency per proxy is 1 between grant and release. -/
theorem locked_index_exclusive :
    ∀ (s : PMState) (now : Nat) (excl : List Nat) (i : Nat),
      (∀ pr : ProxyState, (pmAcquire s now excl).1 = some (pr, i) →
        i ∈ ((pmAcquire s now excl).2).lockedIndexes) ∧
      (i ∈ s.lockedIndexes → ∀ (pr : ProxyState) (j : Nat),
        (pmAcquire s now excl).1 = some (pr, j) → j ≠ i) ∧
      (∀ ops : List PMOp, i ∈ s.lockedIndexes →
        (∀ op ∈ ops, op ≠ PMOp.release i) → i ∈ (pmRun s ops).lockedIndexes) := by
  intro s now excl i
  refine ⟨?_, ?_, ?_⟩
  · intro pr hga
    obtain ⟨p, hp, helig, _, hstate⟩ := pmAcquire_grant hga
    rw [hstate]
    exact List.mem_cons_self _ _
  · intro hmem pr j hga hji
    subst hji
    exact (pmEligible_spec (pmAcquire_grant hga).choose_spec.2.1).2.2.1 hmem
  · intro ops
    induction ops generalizing s with
    | nil => intro hmem _; exact hmem
    | cons op rest ih =>
        intro hmem hops
        have h1 : i ∈ (pmStep s op).lockedIndexes :=
          pmStep_locked_mem hmem (hops op (List.mem_cons_self _ _))
        show i ∈ (pmRun (pmStep s op) rest).lockedIndexes
        exact ih (pmStep s op) h1 (fun o ho => hops o (List.mem_cons_of_mem _ ho))

/-- Witness for C8: in a two-proxy pool with index 0 locked, `acquire`
grants index 1 (never 0), and 0 stays locked across a `reportFailure`. -/
theorem locked_index_exclusive_witness :
    ((pmAcquire { pmMk [⟨"a", [1], "u", "w"⟩, ⟨"b", [2], "u", "w"⟩] 5 with lockedIndexes := [0] } 0 []).1
        = some (⟨"b", [2], "u", "w", 1, 0, some 2⟩, 1)) ∧
    (1 : Nat) ≠ 0 ∧
    0 ∈ (pmRun { pmMk [⟨"a", [1], "u", "w"⟩, ⟨"b", [2], "u", "w"⟩] 5 with lockedIndexes := [0] }
          [PMOp.reportFailure 5 1]).lockedIndexes :=
  ⟨by decide,
   (locked_index_exclusive
      { pmMk [⟨"a", [1], "u", "w"⟩, ⟨"b", [2], "u", "w"⟩] 5 with lockedIndexes := [0] } 0 [] 0).2.1
      (by decide) ⟨"b", [2], "u", "w", 1, 0, some 2⟩ 1 (by decide),
   (locked_index_exclusive
      { pmMk [⟨"a", [1], "u", "w"⟩, ⟨"b", [2], "u", "w"⟩] 5 with lockedIndexes := [0] } 0 [] 0).2.2
      [PMOp.reportFailure 5 1] (by decide) (by decide)⟩

theorem pmRun_append (s : PMState) (l1 l2 : List PMOp) :
    pmRun s (l1 ++ l2) = pmRun (pmRun s l1) l2 :=
  List.foldl_append _ _ _ _

/-- Operation sequence of `n` rounds of `acquire` immediately followed by
`release` on the single proxy of a one-proxy pool. -/
def acqRelCycle : Nat → List PMOp
  | 0 => []
  | n + 1 => acqRelCycle n ++ [PMOp.acquire 0 [], PMOp.release 0]

/-- State of the one-proxy pool with ports `[p0, p1, p2]` after `n`
acquire/release rounds: idle, with the rotation cursor at `n % 3` and the
active port `ports[n % 3]`. -/
theorem acqRelCycle_state (p0 p1 p2 : Nat) : ∀ n : Nat,
    pmRun (pmMk [⟨"h", [p0, p1, p2], "u", "w"⟩] 1) (acqRelCycle n)
      = { proxies := [⟨"h", [p0, p1, p2], "u", "w", 0, n % 3, [p0, p1, p2][(n % 3)]?⟩],
          maxRequests := 1, lockedIndexes := [], failureCount := [], cooldownUntil := [] } := by
  intro n
  induction n with
  | zero =>
      simp [acqRelCycle, pmRun, pmMk]
  | succ n ih =>
      have hsplit : acqRelCycle (n + 1) = acqRelCycle n ++ [PMOp.acquire 0 [], PMOp.release 0] := rfl
      rw [hsplit, pmRun_append, ih]
      have hmod : (n % 3 + 1) % 3 = (n + 1) % 3 := by omega
      simp [pmRun, pmStep, pmAcquire, pmFindIndex, pmFindFrom, pmEligible, isOnCooldown,
        lookA, acqUpd, updAt, pmRelease, hmod]

/-- C6: on every successful `acquire`, the granted proxy's rotation
cursor advances to `(cursor + 1) mod ports.length` and its active port
becomes `ports[new cursor]`, both in the returned proxy and in the pool
state; consequently, on a one-proxy pool with ports `[p0, p1, p2]` and
initial cursor 0, the `(n+1)`-st successful acquisition returns the port
with index `(n+1) mod 3` — the cyclic order `p1, p2, p0, p1, ...`. -/
theorem port_rotation :
    (∀ (s : PMState) (now : Nat) (excl : List Nat) (pr : ProxyState) (i : Nat),
      (pmAcquire s now excl).1 = some (pr, i) →
      ∃ p, s.proxies[i]? = some p ∧
        pr.portIndex = (p.portIndex + 1) % p.ports.length ∧
        pr.port = p.ports[((p.portIndex + 1) % p.ports.length)]? ∧
        ((pmAcquire s now excl).2).proxies[i]? = some pr) ∧
    (∀ (p0 p1 p2 n : Nat),
      (pmAcquire (pmRun (pmMk [⟨"h", [p0, p1, p2], "u", "w"⟩] 1) (acqRelCycle n)) 0 []).1
        = some (⟨"h", [p0, p1, p2], "u", "w", 1, (n + 1) % 3, [p0, p1, p2][((n + 1) % 3)]?⟩, 0)) := by
  constructor
  · intro s now excl pr i hga
    obtain ⟨p, hp, helig, hpr, hstate⟩ := pmAcquire_grant hga
    refine ⟨p, hp, ?_, ?_, ?_⟩
    · rw [hpr]; rfl
    · rw [hpr]; rfl
    · rw [hstate]
      show (updAt acqUpd s.proxies i)[i]? = some pr
      rw [updAt_getElem?_self, hp, hpr]
      rfl
  · intro p0 p1 p2 n
    rw [acqRelCycle_state]
    have hmod : (n % 3 + 1) % 3 = (n + 1) % 3 := by omega
    simp [pmAcquire, pmFindIndex, pmFindFrom, pmEligible, isOnCooldown, lookA, acqUpd, hmod]

/-- Witness for C6: the first acquisition on a fresh pool with ports
`[1, 2, 3]` returns the proxy with cursor 1 and port 2. -/
theorem port_rotation_witness :
    ((pmAcquire (pmMk [⟨"h", [1, 2, 3], "u", "w"⟩] 5) 0 []).1
        = some (⟨"h", [1, 2, 3], "u", "w", 1, 1, some 2⟩, 0)) ∧
    (⟨"h", [1, 2, 3], "u", "w", 1, 1, some 2⟩ : ProxyState).port = [1, 2, 3][1]? := by
  refine ⟨by decide, ?_⟩
  obtain ⟨p, hp, hpi, hport, hst⟩ := port_rotation.1 (pmMk [⟨"h", [1, 2, 3], "u", "w"⟩] 5) 0 []
      ⟨"h", [1, 2, 3], "u", "w", 1, 1, some 2⟩ 0 (by decide)
  have hp' : p = ⟨"h", [1, 2, 3], "u", "w", 0, 0, some 1⟩ := by
    have hc : (pmMk [⟨"h", [1, 2, 3], "u", "w"⟩] 5).proxies[0]? =
        some (⟨"h", [1, 2, 3], "u", "w", 0, 0, some 1⟩ : ProxyState) := by decide
    rw [hc] at hp
    exact (Option.some.inj hp).symm
  rw [hport, hp']
  decide

/-- Counterexample for C9 as stated: the `ProxyManager` constructor,
given a resource whose ports list is empty, does not fail — it produces a
pool instance containing that resource, with `port` left `undefined`
(`none`, the value of `ports[0]` on an empty array).  No
`InvalidResourceConfig` error exists anywhere in the class. -/
theorem constructor_accepts_empty_ports_counterexample :
    (pmMk [⟨"h", [], "u", "w"⟩] 1).proxies
      = [⟨"h", [], "u", "w", 0, 0, none⟩] := by decide

/-- C9 (amended): pool construction performs no validation of the
resource list.  Every supplied config — malformed or not — becomes a pool
entry with usage 0, cursor 0 and `port = ports[0]` (which is `undefined`
for an empty ports list); construction always succeeds. -/
theorem constructor_no_validation :
    ∀ (cfgs : List ProxyConfig) (mx : Nat) (k : Nat) (c : ProxyConfig),
      cfgs[k]? = some c →
      (pmMk cfgs mx).proxies[k]? =
        some ⟨c.host, c.ports, c.username, c.password, 0, 0, c.ports[0]?⟩ := by
  intro cfgs mx k c h
  simp [pmMk, List.getElem?_map, h]

/-- Witness for the amended C9 at the empty-ports config. -/
theorem constructor_no_validation_witness :
    (pmMk [⟨"h", [], "u", "w"⟩] 1).proxies[0]? = some ⟨"h", [], "u", "w", 0, 0, none⟩ :=
  constructor_no_validation [⟨"h", [], "u", "w"⟩] 1 0 ⟨"h", [], "u", "w"⟩ (by decide)

/-!
RequestManager (src/utils/ManageRequest.ts).  `limits` is a record from
API key to per-channel state.  A `request(apiKey, callback)` call either
throws synchronously (unknown key) or creates a promise whose executor
pushes a `tryExecute` closure onto the channel queue and runs it at once
when it is the sole entry.  `tryExecute` prunes timestamps outside the
sliding window; if quota remains it records `now`, runs the callback
(whose settlement resolves or rejects the promise — first settlement
wins) and then shifts the queue head and runs it; otherwise it schedules
itself again via `setTimeout`.  Crucially, the source never removes a
`tryExecute` from the queue before running it, so the shift after a
completed callback dequeues the very closure that just ran.

The JavaScript event loop is modelled deterministically: callbacks are a
table `cb : Nat → Except String Nat` from submission id to the outcome of
one execution; the synchronous part of `tryExecute` appends the awaited
outcome to a FIFO microtask list; microtasks are drained after the
synchronous macrotask; `setTimeout` callbacks run as macrotasks in
fire-time order (insertion order on ties), each followed by a microtask
drain.  `execLog` records every start of the wrapped operation,
`settleLog` the first settlement of each submission's promise.
-/

/-- Per-channel state (type `APILimit`): the configured limit, the window
length, the recorded timestamps and the queue of pending `tryExecute`
closures (identified by submission id). -/
structure APILimit where
  maxRequests : Nat
  windowMs : Nat
  requests : List Nat
  queue : List Nat
deriving DecidableEq

/-- Class fields of `RequestManager`: the per-key channel record. -/
structure RequestManager where
  limits : List (String × APILimit)
deriving DecidableEq

/-- Method `registerAPI`: install a fresh channel under the key. -/
def registerAPI (m : RequestManager) (apiKey : String) (maxRequests windowMs : Nat) :
    RequestManager :=
  ⟨setA apiKey ⟨maxRequests, windowMs, [], []⟩ m.limits⟩

/-- The synchronous prefix of `request`: look the key up and throw
`Error("API \"key\" no registrada")` when absent, before any state is
touched; otherwise proceed with the channel. -/
def rmDispatch (m : RequestManager) (apiKey : String) : Except String APILimit :=
  match lookA apiKey m.limits with
  | none => Except.error ("API \"" ++ apiKey ++ "\" no registrada")
  | some limit => Except.ok limit

/-- Whole simulated world: the manager, the pending `setTimeout` timers
`(fireTime, key, id)`, the pending microtasks (continuations of
`await callback()` carrying the awaited outcome), and the two logs. -/
structure RMSim where
  rm : RequestManager
  timers : List (Nat × String × Nat)
  micro : List (String × Nat × Except String Nat)
  execLog : List (Nat × Nat)
  settleLog : List (Nat × Nat × Except String Nat)

/-- The synchronous part of `tryExecute` for submission `id` on channel
`key` at time `now`: prune old timestamps; under quota, record `now`,
start the callback (logged in `execLog`) and queue its continuation as a
microtask; over quota, compute `waitTime = windowMs - (now - requests[0])`
and schedule a retry timer.  The closure itself is never removed from the
channel queue here, exactly as in the source. -/
def syncTry (cb : Nat → Except String Nat) (key : String) (id now : Nat) (s : RMSim) : RMSim :=
  match lookA key s.rm.limits with
  | none => s
  | some limit =>
      let reqs := limit.requests.filter (fun ts => decide (now - ts < limit.windowMs))
      if reqs.length < limit.maxRequests then
        { s with
          rm := ⟨setA key { limit with requests := reqs ++ [now] } s.rm.limits⟩,
          execLog := s.execLog ++ [(id, now)],
          micro := s.micro ++ [(key, id, cb id)] }
      else
        { s with
          rm := ⟨setA key { limit with requests := reqs } s.rm.limits⟩,
          timers := s.timers ++ [(now + (limit.windowMs - (now - reqs.headD 0)), key, id)] }

/-- First settlement of a promise wins; later `resolve`/`reject` calls on
the same promise are no-ops. -/
def settleOnce (s : RMSim) (id now : Nat) (r : Except String Nat) : RMSim :=
  if s.settleLog.any (fun e => e.1 == id) then s
  else { s with settleLog := s.settleLog ++ [(id, now, r)] }

/-- Drain the microtask queue at time `now`.  Each continuation settles
its promise with the awaited outcome and then — as the source does after
the `await` — shifts the channel queue and runs the shifted closure's
synchronous part (which may enqueue a further microtask).  Fuel bounds
the drain; all scenario evaluations stay far below it. -/
def drainMicro (cb : Nat → Except String Nat) : Nat → Nat → RMSim → RMSim
  | 0, _, s => s
  | fuel + 1, now, s =>
      match s.micro with
      | [] => s
      | (key, id, r) :: rest =>
          let s1 := settleOnce { s with micro := rest } id now r
          let s2 :=
            match lookA key s1.rm.limits with
            | none => s1
            | some limit =>
                match limit.queue with
                | [] => s1
                | h :: t =>
                    syncTry cb key h now
                      { s1 with rm := ⟨setA key { limit with queue := t } s1.rm.limits⟩ }
          drainMicro cb fuel now s2

/-- The synchronous effect of one `request` call (the promise executor
runs synchronously): unknown key throws immediately, leaving every part
of the world untouched; otherwise the closure is pushed and, when it is
the sole queue entry, run at once. -/
def rmSubmit (cb : Nat → Except String Nat) (s : RMSim) (key : String) (id now : Nat) :
    Option String × RMSim :=
  match lookA key s.rm.limits with
  | none => (some ("API \"" ++ key ++ "\" no registrada"), s)
  | some limit =>
      let q' := limit.queue ++ [id]
      let s1 := { s with rm := ⟨setA key { limit with queue := q' } s.rm.limits⟩ }
      if q'.length == 1 then (none, syncTry cb key id now s1) else (none, s1)

/-- Pop the next timer to fire: minimal fire time, insertion order on
ties (JavaScript timer semantics). -/
def popMinTimer : List (Nat × String × Nat) →
    Option ((Nat × String × Nat) × List (Nat × String × Nat))
  | [] => none
  | t :: rest =>
      match popMinTimer rest with
      | none => some (t, rest)
      | some (m, rest') => if t.1 ≤ m.1 then some (t, rest) else some (m, t :: rest')

/-- Run timer macrotasks to completion (fuel-bounded): fire the earliest
timer, run the scheduled `tryExecute` and drain the microtasks it spawns. -/
def runTimers (cb : Nat → Except String Nat) : Nat → RMSim → RMSim
  | 0, s => s
  | fuel + 1, s =>
      match popMinTimer s.timers with
      | none => s
      | some ((t, key, id), rest) =>
          runTimers cb fuel (drainMicro cb 100 t (syncTry cb key id t { s with timers := rest }))

/-- A fresh world holding one registered channel. -/
def rmInitSim (key : String) (maxRequests windowMs : Nat) : RMSim :=
  ⟨registerAPI ⟨[]⟩ key maxRequests windowMs, [], [], [], []⟩

/-- Scenario: `registerAPI("x", 2, 1000)` and three back-to-back
`request` calls (ids 1, 2, 3) in one macrotask at t = 0, then the event
loop runs to completion. -/
def scenThree (cb : Nat → Except String Nat) : RMSim :=
  runTimers cb 10 (drainMicro cb 100 0
    ((rmSubmit cb ((rmSubmit cb ((rmSubmit cb (rmInitSim "x" 2 1000) "x" 1 0).2) "x" 2 0).2) "x" 3 0).2))

/-- Scenario: `registerAPI("x", 2, 1000)` and a single `request` call
(id 1) at t = 0, then the event loop runs to completion. -/
def scenOne (cb : Nat → Except String Nat) : RMSim :=
  runTimers cb 10 (drainMicro cb 100 0 ((rmSubmit cb (rmInitSim "x" 2 1000) "x" 1 0).2))

/-- C2 evaluation: with `maxRequests = 2, windowMs = 1000` and three
`request` calls at t = 0, the code does not execute the first two
operations immediately and the third at t = 1000.  Instead, operation 1
executes twice at t = 0 — because a completed `tryExecute` shifts the
queue head, which is still itself, and re-runs it — filling both window
slots; operation 2 is therefore delayed to t = 1000 and operation 3 also
runs at t = 1000.  The third submission indeed starts no earlier than
t = 1000, but the schedule contradicts the claimed one. -/
theorem rate_limit_three_submits_eval :
    (scenThree (fun i => Except.ok i)).execLog = [(1, 0), (1, 0), (2, 1000), (3, 1000)] ∧
    (scenThree (fun i => Except.ok i)).settleLog
      = [(1, 0, Except.ok 1), (2, 1000, Except.ok 2), (3, 1000, Except.ok 3)] :=
  ⟨rfl, rfl⟩

/-- C3 evaluation: a single `request` whose operation rejects.  The
rejection is propagated to the caller exactly once (the promise settles
with the error), but the operation itself is executed twice and two
window timestamps are recorded — the completed `tryExecute` shifts the
queue head (itself) and runs again — contradicting the claim that each
submitted operation consumes one quota unit and executes exactly once. -/
theorem rate_limit_single_submit_eval :
    (scenOne (fun _ => Except.error "boom")).settleLog = [(1, 0, Except.error "boom")] ∧
    (scenOne (fun _ => Except.error "boom")).execLog = [(1, 0), (1, 0)] ∧
    lookA "x" (scenOne (fun _ => Except.error "boom")).rm.limits
      = some ⟨2, 1000, [0, 0], []⟩ :=
  ⟨rfl, rfl, rfl⟩

/-- C10: a `request` against an unregistered key throws
`Error("API \"key\" no registrada")` synchronously — before the promise
executor runs — so the whole world (channels, timestamps, queues, timers,
logs) is untouched and nothing is retried; a freshly registered key
passes the check with its configured channel; and for a registered key
the caller's promise settles with the wrapped operation's own outcome
(here: the outcome of its first execution). -/
theorem submit_channel_registration :
    (∀ (m : RequestManager) (key : String), lookA key m.limits = none →
      rmDispatch m key = Except.error ("API \"" ++ key ++ "\" no registrada")) ∧
    (∀ (sim : RMSim) (key : String) (id now : Nat) (cb : Nat → Except String Nat),
      lookA key sim.rm.limits = none →
      rmSubmit cb sim key id now = (some ("API \"" ++ key ++ "\" no registrada"), sim)) ∧
    (∀ (m : RequestManager) (key : String) (mx w : Nat),
      rmDispatch (registerAPI m key mx w) key = Except.ok ⟨mx, w, [], []⟩) ∧
    (∀ cb : Nat → Except String Nat, (scenOne cb).settleLog = [(1, 0, cb 1)]) := by
  refine ⟨?_, ?_, ?_, ?_⟩
  · intro m key h
    rw [rmDispatch, h]
  · intro sim key id now cb h
    rw [rmSubmit, h]
  · intro m key mx w
    rw [rmDispatch, registerAPI, lookA_setA_self]
  · intro cb
    rfl

/-- Witness for C10: submitting on the unregistered key `"y"` fails with
the exact error message and leaves the registered world untouched, while
the registered channel `"x"` passes the dispatch check. -/
theorem submit_channel_registration_witness :
    rmSubmit (fun i => Except.ok i) (rmInitSim "x" 2 1000) "y" 7 0
      = (some ("API \"" ++ "y" ++ "\" no registrada"), rmInitSim "x" 2 1000) ∧
    rmDispatch (registerAPI ⟨[]⟩ "x" 2 1000) "x" = Except.ok ⟨2, 1000, [], []⟩ :=
  ⟨submit_channel_registration.2.1 (rmInitSim "x" 2 1000) "y" 7 0 (fun i => Except.ok i) (by decide),
   submit_channel_registration.2.2.1 ⟨[]⟩ "x" 2 1000⟩
